import Mathlib

/-!
# Verification of the `calculator-rs` core (`src/calculator.rs`)

Shallow embedding of the event-driven calculator core: the `Tokens` and
`Events` sum types, the `Calculator` state (`ops` token list plus
`accumulator`), the `shunting_yard` infix-to-postfix reorder, the postfix
stack evaluation inside `Calculator::calculate`, and the `dispatch` event
handler.

Modelling conventions:
* Rust `Vec` stacks are Lean lists with the list head as the stack top
  (Rust pushes/pops at the `Vec` end; `last()` is the top).  The output
  queue keeps Rust's order: elements are appended at the end.
* `i64` values are modelled as `Int`; Rust `/` on `i64` truncates toward
  zero, which is `Int.tdiv`.  Where a claim turns on `i64` overflow in
  the `Number` arm, that arm is additionally modelled with
  two's-complement wrap-around (`wrap64`, `dispatchNumberI64`, the
  release-build behavior; debug builds panic at the same inputs); the
  other claims only involve values far inside the `i64` range.
* Panics (`unwrap` on an empty stack, integer division by zero) are
  modelled as error results: the postfix evaluator returns an
  `EvalResult` distinguishing stack underflow from division by zero, and
  `dispatch` returns `none` when evaluation panics.
-/

namespace CalculatorRs

/-- `enum Tokens` from `calculator.rs`. -/
inductive Tokens where
  | Add
  | Sub
  | Mul
  | Div
  | Number (n : Int)
deriving DecidableEq, Repr

/-- `enum Events` from `calculator.rs`. -/
inductive Events where
  | Add
  | Sub
  | Mul
  | Div
  | Neg
  | Number (n : Int)
  | Eq
  | Backspace
  | Reset
  | Idle
deriving DecidableEq, Repr

/-- `struct Calculator { ops: Vec<Tokens>, accumulator: i64 }`. -/
structure Calculator where
  ops : List Tokens
  accumulator : Int
deriving DecidableEq, Repr

/-- `Calculator::default()`: empty token list, accumulator `0`. -/
def Calculator.default : Calculator := { ops := [], accumulator := 0 }

/-- `top == Tokens::Add || top == Tokens::Sub` (the pop condition of the
`Add | Sub` arm of `shunting_yard`). -/
def isAddSubTok : Tokens → Bool
  | .Add | .Sub => true
  | _ => false

/-- `top == Tokens::Mul || top == Tokens::Div` (the pop condition of the
`Mul | Div` arm of `shunting_yard`). -/
def isMulDivTok : Tokens → Bool
  | .Mul | .Div => true
  | _ => false

/-- `true` on the four operator tokens, `false` on `Number`. -/
def isOpTok (t : Tokens) : Bool := isAddSubTok t || isMulDivTok t

/-- The `while let Some(top) = operator_stack.last() { if p(top) {pop} else {break} }`
loop: returns the popped elements in pop order, and the remaining stack. -/
def popWhile (p : Tokens → Bool) : List Tokens → List Tokens × List Tokens
  | [] => ([], [])
  | t :: rest =>
    if p t then
      let pr := popWhile p rest
      (t :: pr.1, pr.2)
    else
      ([], t :: rest)

/-- Pop condition used when operator `tok` arrives: an incoming `Add`/`Sub`
pops while the top is `Add`/`Sub`; an incoming `Mul`/`Div` pops while the
top is `Mul`/`Div` (the source's two identical loop bodies). -/
def opClass (tok : Tokens) : Tokens → Bool :=
  if isAddSubTok tok then isAddSubTok else isMulDivTok

/-- The main loop of `shunting_yard`, over (output queue, operator stack,
remaining input), followed by the final drain `while let Some(op) =
operator_stack.pop()`. -/
def shunting_yard_go : List Tokens → List Tokens → List Tokens → List Tokens
  | out, stack, [] => out ++ stack
  | out, stack, Tokens.Number n :: rest =>
      shunting_yard_go (out ++ [Tokens.Number n]) stack rest
  | out, stack, tok :: rest =>
      shunting_yard_go (out ++ (popWhile (opClass tok) stack).1)
        (tok :: (popWhile (opClass tok) stack).2) rest

/-- `fn shunting_yard(tokens: Vec<Tokens>) -> Vec<Tokens>`. -/
def shunting_yard (tokens : List Tokens) : List Tokens :=
  shunting_yard_go [] [] tokens

/-- Outcome of the postfix evaluation loop in `Calculator::calculate`:
the final numeric stack, or one of the two panic conditions
(`unwrap` of an empty pop, `i64` division by zero). -/
inductive EvalResult where
  | ok (stack : List Int)
  | underflow
  | divZero
deriving DecidableEq, Repr

/-- The `for token in shunting_yard(...)` evaluation loop of
`Calculator::calculate`, acting on the numeric stack (head = top). -/
def evalGo : List Int → List Tokens → EvalResult
  | stack, [] => .ok stack
  | stack, Tokens.Number n :: rest => evalGo (n :: stack) rest
  | stack, Tokens.Add :: rest =>
      match stack with
      | y :: x :: st => evalGo ((x + y) :: st) rest
      | _ => .underflow
  | stack, Tokens.Sub :: rest =>
      match stack with
      | y :: x :: st => evalGo ((x - y) :: st) rest
      | _ => .underflow
  | stack, Tokens.Mul :: rest =>
      match stack with
      | y :: x :: st => evalGo ((x * y) :: st) rest
      | _ => .underflow
  | stack, Tokens.Div :: rest =>
      match stack with
      | y :: x :: st =>
          if y = 0 then .divZero else evalGo (Int.tdiv x y :: st) rest
      | _ => .underflow

/-- `Calculator::calculate`: run the postfix evaluation over
`shunting_yard(ops)` and return the final `stack.pop().unwrap()`.
`none` models a panic (empty pop or division by zero). -/
def calculate (ops : List Tokens) : Option Int :=
  match evalGo [] (shunting_yard ops) with
  | .ok (r :: _) => some r
  | _ => none

/-- `Calculator::display` (the GUI shows `self.accumulator.to_string()`). -/
def display (c : Calculator) : String := toString c.accumulator

/-- `Calculator::dispatch`.  `none` models a panic inside `calculate`
aborting the process. -/
def dispatch (c : Calculator) (event : Events) : Option Calculator :=
  match event with
  | .Idle => some c
  | .Eq =>
      match calculate (c.ops ++ [Tokens.Number c.accumulator]) with
      | some r => some { ops := [], accumulator := r }
      | none => none
  | .Reset => some { ops := [], accumulator := 0 }
  | .Neg => some { c with accumulator := -c.accumulator }
  | .Number num =>
      if c.accumulator ≤ 9999999999 then
        some { c with accumulator := c.accumulator * 10 + num }
      else
        some c
  | .Backspace => some { c with accumulator := Int.tdiv c.accumulator 10 }
  | .Add =>
      some { ops := c.ops ++ [Tokens.Number c.accumulator, Tokens.Add], accumulator := 0 }
  | .Sub =>
      some { ops := c.ops ++ [Tokens.Number c.accumulator, Tokens.Sub], accumulator := 0 }
  | .Mul =>
      some { ops := c.ops ++ [Tokens.Number c.accumulator, Tokens.Mul], accumulator := 0 }
  | .Div =>
      some { ops := c.ops ++ [Tokens.Number c.accumulator, Tokens.Div], accumulator := 0 }

/-- Dispatch a list of events in order; `none` as soon as one panics. -/
def dispatchEvents (c : Calculator) : List Events → Option Calculator
  | [] => some c
  | e :: rest =>
      match dispatch c e with
      | some c' => dispatchEvents c' rest
      | none => none

/-! ## Well-formed expressions

A well-formed alternating token sequence `Number, Op, Number, …, Number`
is represented as a first operand together with a list of
(operator, operand) pairs. -/

/-- The four binary operators, as their own type. -/
inductive Op where
  | add
  | sub
  | mul
  | div
deriving DecidableEq, Repr

/-- The token of an operator. -/
def Op.tok : Op → Tokens
  | .add => .Add
  | .sub => .Sub
  | .mul => .Mul
  | .div => .Div

/-- Flatten (operator, operand) pairs into tokens. -/
def pairTokens : List (Op × Int) → List Tokens
  | [] => []
  | (op, n) :: rest => op.tok :: Tokens.Number n :: pairTokens rest

/-- The well-formed alternating token sequence
`Number first, op₁, Number n₁, …, opₖ, Number nₖ`. -/
def toTokens (first : Int) (rest : List (Op × Int)) : List Tokens :=
  Tokens.Number first :: pairTokens rest

/-! ## Specification-side infix evaluation

Modelled from the spec's words, for comparison with the code: standard
left-associative, precedence-respecting infix evaluation — `Mul`/`Div`
bind tighter than `Add`/`Sub`, same-precedence chains group left to
right, division truncates toward zero, division by zero is undefined
(`none`). -/

/-- Additive operator pending between the completed prefix and the
current multiplicative chain. -/
inductive AS where
  | add
  | sub
deriving DecidableEq, Repr

/-- Apply the pending additive operator. -/
def applyAS (acc : Int) : AS → Int → Int
  | .add, t => acc + t
  | .sub, t => acc - t

/-- One pass over the (operator, operand) pairs: `acc` is the value of the
completed additive prefix, `pend` the additive operator awaiting the
current term, `term` the value of the current multiplicative chain. -/
def specGo (acc : Int) (pend : AS) (term : Int) : List (Op × Int) → Option Int
  | [] => some (applyAS acc pend term)
  | (Op.mul, n) :: rest => specGo acc pend (term * n) rest
  | (Op.div, n) :: rest =>
      if n = 0 then none else specGo acc pend (Int.tdiv term n) rest
  | (Op.add, n) :: rest => specGo (applyAS acc pend term) AS.add n rest
  | (Op.sub, n) :: rest => specGo (applyAS acc pend term) AS.sub n rest

/-- Standard precedence-respecting, left-associative evaluation of the
well-formed infix sequence `first op₁ n₁ … opₖ nₖ` (from the spec's
words, not from the code). -/
def specInfixEval (first : Int) (rest : List (Op × Int)) : Option Int :=
  specGo 0 AS.add first rest

/-! ## Auxiliary definitions for the invariants -/

/-- The four operator events (`Add`, `Sub`, `Mul`, `Div`). -/
def isOpEvent : Events → Bool
  | .Add | .Sub | .Mul | .Div => true
  | _ => false

/-- The `op_token` mapping inside the operator arm of `dispatch`. -/
def opEventToken : Events → Option Tokens
  | .Add => some Tokens.Add
  | .Sub => some Tokens.Sub
  | .Mul => some Tokens.Mul
  | .Div => some Tokens.Div
  | _ => none

/-- Well-formed committed token lists: a (possibly empty) sequence of
`Number`/operator pairs, i.e. alternating `Number, op, Number, op, …`
starting with a `Number` and ending with an operator when non-empty. -/
inductive OpsWF : List Tokens → Prop where
  | nil : OpsWF []
  | pair (n : Int) (t : Tokens) (rest : List Tokens)
      (ht : isOpTok t = true) (h : OpsWF rest) :
      OpsWF (Tokens.Number n :: t :: rest)

/-- Sequencing for evaluation results: continue evaluating `b` from the
stack of `r` when `r` succeeded, propagate the failure otherwise. -/
def evalCont (r : EvalResult) (b : List Tokens) : EvalResult :=
  match r with
  | .ok st => evalGo st b
  | .underflow => .underflow
  | .divZero => .divZero

/-- Two's-complement wrap-around of `i64` arithmetic: the representative
of `x` modulo `2^64` lying in `[-2^63, 2^63)`. -/
def wrap64 (x : Int) : Int :=
  (x + 9223372036854775808) % 18446744073709551616 - 9223372036854775808

/-- The `Number` arm of `dispatch` with exact `i64` semantics for release
builds: `accumulator *= 10` and `accumulator += num` each wrap around on
overflow (a debug build panics at the same inputs instead). -/
def dispatchNumberI64 (c : Calculator) (num : Int) : Calculator :=
  if c.accumulator ≤ 9999999999 then
    { c with accumulator := wrap64 (wrap64 (c.accumulator * 10) + num) }
  else
    c

/-! ## C1: operator precedence -/

/-- C1: the claim's two cited inputs do hold (`2, Add, 3, Mul, 4, Eq`
displays `"14"` and `10, Sub, 3, Sub, 2, Eq` displays `"5"`, matching the
standard evaluation), but the universally quantified claim is false: the
shunting-yard reorder pops only same-precedence-class operators, so an
incoming `Add` never flushes a pending `Mul`.  On `2, Mul, 3, Add, 4, Eq`
the code reorders to `2 3 4 + *` and displays `14` (= `2*(3+4)`), while
standard left-associative, precedence-respecting infix evaluation gives
`10` (= `(2*3)+4`). -/
theorem c1_precedence_code_bug :
    calculate (toTokens 2 [(Op.mul, 3), (Op.add, 4)]) = some 14 ∧
    specInfixEval 2 [(Op.mul, 3), (Op.add, 4)] = some 10 ∧
    shunting_yard (toTokens 2 [(Op.mul, 3), (Op.add, 4)]) =
      [Tokens.Number 2, Tokens.Number 3, Tokens.Number 4, Tokens.Add, Tokens.Mul] ∧
    (dispatchEvents Calculator.default
        [Events.Number 2, Events.Mul, Events.Number 3, Events.Add, Events.Number 4,
          Events.Eq]).map display = some "14" ∧
    (dispatchEvents Calculator.default
        [Events.Number 2, Events.Add, Events.Number 3, Events.Mul, Events.Number 4,
          Events.Eq]).map display = some "14" ∧
    specInfixEval 2 [(Op.add, 3), (Op.mul, 4)] = some 14 ∧
    (dispatchEvents Calculator.default
        [Events.Number 10, Events.Sub, Events.Number 3, Events.Sub, Events.Number 2,
          Events.Eq]).map display = some "5" ∧
    specInfixEval 10 [(Op.sub, 3), (Op.sub, 2)] = some 5 := by
  decide

/-! ## C2: digit entry immediately after `Eq` -/

/-- C2 counterexample: after `2, Add, 3, Eq` the state is
`ops = [], accumulator = 5`; dispatching `Number 7` yields pending `57`
(the digit is appended to the result `R = 5`), not the fresh operand `7`
the claim requires. -/
theorem c2_counterexample :
    dispatchEvents Calculator.default
        [Events.Number 2, Events.Add, Events.Number 3, Events.Eq]
      = some { ops := [], accumulator := 5 } ∧
    dispatchEvents Calculator.default
        [Events.Number 2, Events.Add, Events.Number 3, Events.Eq, Events.Number 7]
      = some { ops := [], accumulator := 57 } ∧
    (57 : Int) ≠ 7 := by
  decide

/-- C2 amended: in any post-`Eq` state (`ops` empty, result `R` in the
accumulator), dispatching `Number d` appends the digit to `R` — pending
becomes `R*10 + d` whenever `R` passes the ten-digit guard — and
dispatching an operator event first commits `R` as the left operand of a
new expression. -/
theorem c2_amended (c : Calculator) (hops : c.ops = []) :
    (∀ d : Int, c.accumulator ≤ 9999999999 →
        dispatch c (Events.Number d)
          = some { ops := [], accumulator := c.accumulator * 10 + d }) ∧
    (∀ (e : Events) (t : Tokens), opEventToken e = some t →
        dispatch c e
          = some { ops := [Tokens.Number c.accumulator, t], accumulator := 0 }) := by
  obtain ⟨ops, acc⟩ := c
  simp only at hops
  subst hops
  refine ⟨fun d h => ?_, fun e t ht => ?_⟩
  · simp [dispatch, h]
  · cases e <;> simp_all [opEventToken, dispatch]

/-- C2 witness: from the post-`Eq` state with result `5`, a digit `7`
yields pending `57`, and `Add` commits `5` as the left operand. -/
theorem c2_amended_witness :
    dispatch { ops := [], accumulator := 5 } (Events.Number 7)
        = some { ops := [], accumulator := 57 } ∧
    dispatch { ops := [], accumulator := 5 } Events.Add
        = some { ops := [Tokens.Number 5, Tokens.Add], accumulator := 0 } := by
  constructor
  · rw [(c2_amended { ops := [], accumulator := 5 } rfl).1 7 (by decide)]
    decide
  · exact (c2_amended { ops := [], accumulator := 5 } rfl).2 Events.Add Tokens.Add rfl

/-! ## C3: the ten-digit guard -/

/-- C3 counterexample: after ten `9` digits the pending value is
`9999999999`, which still passes the guard `pending <= 9_999_999_999`, so
an eleventh digit is accepted and the value changes to `99999999999`. -/
theorem c3_counterexample :
    dispatchEvents Calculator.default
        [Events.Number 9, Events.Number 9, Events.Number 9, Events.Number 9,
          Events.Number 9, Events.Number 9, Events.Number 9, Events.Number 9,
          Events.Number 9, Events.Number 9]
      = some { ops := [], accumulator := 9999999999 } ∧
    dispatchEvents Calculator.default
        [Events.Number 9, Events.Number 9, Events.Number 9, Events.Number 9,
          Events.Number 9, Events.Number 9, Events.Number 9, Events.Number 9,
          Events.Number 9, Events.Number 9, Events.Number 9]
      = some { ops := [], accumulator := 99999999999 } ∧
    (99999999999 : Int) ≠ 9999999999 := by
  decide

/-- C3 amended: `Number d` sets pending to `p*10 + d` exactly when
`p ≤ 9_999_999_999` and otherwise leaves the state unchanged — since any
ten-digit value still satisfies the guard, an eleventh digit is accepted,
and only from eleven entered digits on (pending above `9_999_999_999`)
are further digits silently ignored. -/
theorem c3_guard (c : Calculator) (d : Int) :
    (c.accumulator ≤ 9999999999 →
      dispatch c (Events.Number d)
        = some { c with accumulator := c.accumulator * 10 + d }) ∧
    (9999999999 < c.accumulator → dispatch c (Events.Number d) = some c) := by
  constructor
  · intro h
    simp [dispatch, h]
  · intro h
    simp [dispatch, not_le.mpr h]

/-- C3 witness: the guard at pending `5` accepts digit `3`, giving `53`;
at pending `10000000000` it ignores digit `3`. -/
theorem c3_guard_witness :
    dispatch { ops := [], accumulator := 5 } (Events.Number 3)
        = some { ops := [], accumulator := 53 } ∧
    dispatch { ops := [], accumulator := 10000000000 } (Events.Number 3)
        = some { ops := [], accumulator := 10000000000 } := by
  constructor
  · rw [(c3_guard { ops := [], accumulator := 5 } 3).1 (by decide)]
    decide
  · exact (c3_guard { ops := [], accumulator := 10000000000 } 3).2 (by decide)

/-! ## C4: division by zero -/

/-- C4 counterexample: dispatching `5, Div, 0, Eq` does not produce a
caught error state — the evaluation panics (modelled as `none`), i.e. the
process aborts; no `DivisionByZero` error value is returned. -/
theorem c4_counterexample :
    dispatchEvents Calculator.default
        [Events.Number 5, Events.Div, Events.Number 0, Events.Eq] = none := by
  decide

/-- C4 amended: evaluating `5, Div, 0, Eq` reaches the `i64` division
with divisor `0` inside the postfix loop (the `divZero` outcome), so
`calculate` panics and the dispatch of `Eq` aborts instead of storing a
result; the caught `DivisionByZero` error of the claim exists only in
the spec's hardened design. -/
theorem c4_amended :
    evalGo [] (shunting_yard [Tokens.Number 5, Tokens.Div, Tokens.Number 0])
        = EvalResult.divZero ∧
    calculate [Tokens.Number 5, Tokens.Div, Tokens.Number 0] = none ∧
    (dispatchEvents Calculator.default
        [Events.Number 5, Events.Div, Events.Number 0]).bind
      (fun c => dispatch c Events.Eq) = none := by
  decide

/-! ## C7: backspace -/

/-- C7: `Backspace` sets pending to `pending / 10` with Rust's `i64`
division, which truncates toward zero; hence it drops the last decimal
digit for positive and negative values alike, witnessed in general
(`v*10 + d ↦ v` for `0 ≤ v`, `v*10 - d ↦ v` for `v ≤ 0`, digits
`0 ≤ d < 10`) and on the claim's examples `1234 ↦ 123`, `-123 ↦ -12`,
`-56 ↦ -5`. -/
theorem c7_backspace :
    (∀ c : Calculator,
      dispatch c Events.Backspace
        = some { c with accumulator := Int.tdiv c.accumulator 10 }) ∧
    (∀ (ops : List Tokens) (v d : Int), 0 ≤ v → 0 ≤ d → d < 10 →
      dispatch { ops := ops, accumulator := v * 10 + d } Events.Backspace
        = some { ops := ops, accumulator := v }) ∧
    (∀ (ops : List Tokens) (v d : Int), v ≤ 0 → 0 ≤ d → d < 10 →
      dispatch { ops := ops, accumulator := v * 10 - d } Events.Backspace
        = some { ops := ops, accumulator := v }) ∧
    dispatch { ops := [], accumulator := 1234 } Events.Backspace
      = some { ops := [], accumulator := 123 } ∧
    dispatch { ops := [], accumulator := -123 } Events.Backspace
      = some { ops := [], accumulator := -12 } ∧
    dispatch { ops := [], accumulator := -56 } Events.Backspace
      = some { ops := [], accumulator := -5 } := by
  have key : ∀ v d : Int, 0 ≤ v → 0 ≤ d → d < 10 → Int.tdiv (v * 10 + d) 10 = v := by
    intro v d hv hd hd10
    rw [Int.tdiv_eq_ediv (by positivity) (by norm_num)]
    rw [add_comm, Int.add_mul_ediv_right _ _ (by norm_num : (10 : Int) ≠ 0)]
    rw [Int.ediv_eq_zero_of_lt hd hd10]
    simp
  have key2 : ∀ v d : Int, v ≤ 0 → 0 ≤ d → d < 10 → Int.tdiv (v * 10 - d) 10 = v := by
    intro v d hv hd hd10
    have h2 : v * 10 - d = -((-v) * 10 + d) := by ring
    rw [h2, Int.neg_tdiv, key (-v) d (by omega) hd hd10, neg_neg]
  refine ⟨fun c => rfl, fun ops v d hv hd hd10 => ?_, fun ops v d hv hd hd10 => ?_,
    by decide, by decide, by decide⟩
  · show (some (Calculator.mk ops (Int.tdiv (v * 10 + d) 10)) : Option Calculator)
      = some (Calculator.mk ops v)
    rw [key v d hv hd hd10]
  · show (some (Calculator.mk ops (Int.tdiv (v * 10 - d) 10)) : Option Calculator)
      = some (Calculator.mk ops v)
    rw [key2 v d hv hd hd10]

/-- C7 witness: the general digit-drop facts at concrete inputs. -/
theorem c7_backspace_witness :
    dispatch { ops := [], accumulator := (12 : Int) * 10 + 3 } Events.Backspace
        = some { ops := [], accumulator := 12 } ∧
    dispatch { ops := [], accumulator := (-12 : Int) * 10 - 3 } Events.Backspace
        = some { ops := [], accumulator := -12 } :=
  ⟨c7_backspace.2.1 [] 12 3 (by decide) (by decide) (by decide),
   c7_backspace.2.2.1 [] (-12) 3 (by decide) (by decide) (by decide)⟩

/-! ## C8: negation -/

/-- C8: `Neg` sets pending to its negation while leaving the committed
token list unchanged, and dispatching `Neg` twice restores the original
state (involution). -/
theorem c8_neg_involution (c : Calculator) :
    dispatch c Events.Neg = some { c with accumulator := -c.accumulator } ∧
    (dispatch c Events.Neg).bind (fun c' => dispatch c' Events.Neg) = some c := by
  refine ⟨rfl, ?_⟩
  simp [dispatch]

/-! ## C10: digit entry on negative pending values -/

/-- `wrap64` always lands in the `i64` range `[-2^63, 2^63)`. -/
theorem wrap64_bounds (x : Int) : -(2 ^ 63) ≤ wrap64 x ∧ wrap64 x < 2 ^ 63 := by
  have h1 := Int.emod_nonneg (x + 9223372036854775808)
    (show (18446744073709551616 : Int) ≠ 0 by norm_num)
  have h2 := Int.emod_lt_of_pos (x + 9223372036854775808)
    (show (0 : Int) < 18446744073709551616 by norm_num)
  unfold wrap64
  constructor <;> norm_num <;> omega

/-- Wrapping the first operand before an addition does not change the
wrapped sum. -/
theorem wrap64_add_left (a b : Int) : wrap64 (wrap64 a + b) = wrap64 (a + b) := by
  unfold wrap64
  have h : (a + 9223372036854775808) % 18446744073709551616 - 9223372036854775808 + b
      + 9223372036854775808
      = (a + 9223372036854775808) % 18446744073709551616 + b := by ring
  rw [h, Int.emod_add_emod]
  ring_nf

/-- `wrap64` is the identity on values already in `i64` range. -/
theorem wrap64_eq_of_in_range {x : Int} (h1 : -(2 ^ 63) ≤ x) (h2 : x < 2 ^ 63) :
    wrap64 x = x := by
  unfold wrap64
  rw [Int.emod_eq_of_lt (by norm_num at h1 ⊢; omega) (by norm_num at h2 ⊢; omega)]
  ring

/-- C10 counterexample: the pending value `-922337203685477581` is a valid
negative `i64` and passes the guard, but the update `pending*10 + 0`
overflows `i64`: a release build wraps it to the positive value
`9223372036854775806` (a debug build panics), so pending does not become
the mathematical `v*10 + d` and the magnitude never leaves the `i64`
range — negative operands cannot grow without bound. -/
theorem c10_counterexample :
    dispatchNumberI64 { ops := [], accumulator := -922337203685477581 } 0
      = { ops := [], accumulator := 9223372036854775806 } ∧
    (9223372036854775806 : Int) ≠ (-922337203685477581 : Int) * 10 + 0 ∧
    -(2 ^ 63) ≤ (-922337203685477581 : Int) ∧ (-922337203685477581 : Int) < 0 := by
  decide

/-- C10 amended: the ten-digit cap indeed never applies to a negative
pending value — the update branch is always taken — but the update is
`i64` arithmetic: pending becomes the 64-bit wrap of `pending*10 + d`,
which equals the mathematical `pending*10 + d` exactly when that value is
in `i64` range (e.g. `-12` with digit `3` gives `-117`); the magnitude
therefore always stays below `2^63` and cannot grow without bound. -/
theorem c10_negative_wrap (c : Calculator) (d : Int) (h : c.accumulator < 0) :
    dispatchNumberI64 c d
        = { c with accumulator := wrap64 (c.accumulator * 10 + d) } ∧
    (-(2 ^ 63) ≤ c.accumulator * 10 + d → c.accumulator * 10 + d < 2 ^ 63 →
      dispatchNumberI64 c d = { c with accumulator := c.accumulator * 10 + d }) ∧
    -(2 ^ 63) ≤ (dispatchNumberI64 c d).accumulator ∧
    (dispatchNumberI64 c d).accumulator < 2 ^ 63 := by
  have hle : c.accumulator ≤ 9999999999 := le_trans h.le (by norm_num)
  have hmain : dispatchNumberI64 c d
      = { c with accumulator := wrap64 (c.accumulator * 10 + d) } := by
    unfold dispatchNumberI64
    rw [if_pos hle, wrap64_add_left]
  refine ⟨hmain, fun h1 h2 => ?_, ?_, ?_⟩
  · rw [hmain, wrap64_eq_of_in_range h1 h2]
  · rw [hmain]
    exact (wrap64_bounds _).1
  · rw [hmain]
    exact (wrap64_bounds _).2

/-- C10 witness: the in-range case — pending `-12` with digit `3` becomes
`-117`. -/
theorem c10_negative_wrap_witness :
    dispatchNumberI64 { ops := [], accumulator := -12 } 3
      = { ops := [], accumulator := -117 } := by
  rw [(c10_negative_wrap { ops := [], accumulator := -12 } 3 (by decide)).2.1
    (by decide) (by decide)]
  decide

/-! ## C9: `Eq` on an empty token list -/

/-- C9: dispatching `Eq` with an empty token list evaluates the singleton
expression `[Number pending]`, which round-trips: the state is unchanged.
Consequently dispatching `Eq` twice is the same as dispatching it once
(also when the first `Eq` panics: both runs abort). -/
theorem c9_eq_idempotent :
    (∀ c : Calculator, c.ops = [] → dispatch c Events.Eq = some c) ∧
    (∀ c : Calculator,
      (dispatch c Events.Eq).bind (fun c' => dispatch c' Events.Eq)
        = dispatch c Events.Eq) := by
  have base : ∀ c : Calculator, c.ops = [] → dispatch c Events.Eq = some c := by
    rintro ⟨ops, acc⟩ h
    simp only at h
    subst h
    rfl
  refine ⟨base, fun c => ?_⟩
  rcases h : dispatch c Events.Eq with - | c'
  · rfl
  · have hops : c'.ops = [] := by
      unfold dispatch at h
      rcases hc : calculate (c.ops ++ [Tokens.Number c.accumulator]) with - | r <;>
        rw [hc] at h
      · exact absurd h (by simp)
      · cases h
        rfl
    simpa using base c' hops

/-- C9 witness: `Eq` from the empty-token state with pending `42` keeps
the state. -/
theorem c9_eq_idempotent_witness :
    dispatch { ops := [], accumulator := 42 } Events.Eq
      = some { ops := [], accumulator := 42 } :=
  c9_eq_idempotent.1 { ops := [], accumulator := 42 } rfl

/-! ## C6: dispatcher invariants on reachable states -/

/-- Appending one `Number`/operator pair keeps the token list well-formed. -/
theorem OpsWF.append_pair {l : List Tokens} (h : OpsWF l) (n : Int) {t : Tokens}
    (ht : isOpTok t = true) : OpsWF (l ++ [Tokens.Number n, t]) := by
  induction h with
  | nil => exact .pair n t [] ht .nil
  | pair m s rest hs _ ih => exact .pair m s _ hs ih

/-- A non-empty well-formed token list ends with an operator token. -/
theorem OpsWF.ends_op {l : List Tokens} (h : OpsWF l) (hne : l ≠ []) :
    ∃ t, l.getLast? = some t ∧ isOpTok t = true := by
  induction h with
  | nil => exact absurd rfl hne
  | pair n t rest ht hrest ih =>
    cases rest with
    | nil => exact ⟨t, rfl, ht⟩
    | cons a as =>
      rcases ih (by simp) with ⟨u, hu, hou⟩
      exact ⟨u, by rw [List.getLast?_cons_cons, List.getLast?_cons_cons]; exact hu, hou⟩

/-- Every event dispatch keeps the committed token list well-formed. -/
theorem dispatch_preserves_opsWF {c : Calculator} {e : Events} {c' : Calculator}
    (h : OpsWF c.ops) (hd : dispatch c e = some c') : OpsWF c'.ops := by
  cases e with
  | Idle => cases hd; exact h
  | Eq =>
    unfold dispatch at hd
    rcases hc : calculate (c.ops ++ [Tokens.Number c.accumulator]) with - | r <;>
      rw [hc] at hd
    · exact absurd hd (by simp)
    · cases hd; exact .nil
  | Reset => cases hd; exact .nil
  | Neg => cases hd; exact h
  | Number n =>
    simp only [dispatch] at hd
    split at hd <;> cases hd <;> exact h
  | Backspace => cases hd; exact h
  | Add => cases hd; exact h.append_pair c.accumulator rfl
  | Sub => cases hd; exact h.append_pair c.accumulator rfl
  | Mul => cases hd; exact h.append_pair c.accumulator rfl
  | Div => cases hd; exact h.append_pair c.accumulator rfl

/-- Well-formedness of the token list is preserved along any event run. -/
theorem dispatchEvents_opsWF :
    ∀ (evs : List Events) {c s : Calculator},
      OpsWF c.ops → dispatchEvents c evs = some s → OpsWF s.ops := by
  intro evs
  induction evs with
  | nil =>
    intro c s h hd
    cases hd
    exact h
  | cons e rest ih =>
    intro c s h hd
    unfold dispatchEvents at hd
    rcases hde : dispatch c e with - | c' <;> rw [hde] at hd
    · exact absurd hd (by simp)
    · exact ih (dispatch_preserves_opsWF h hde) hd

/-- C6: in every state reachable from the initial state, the committed
token list is well-formed (alternating `Number`/operator pairs), so when
non-empty it ends with an operator; dispatching any operator event
leaves the list ending with an operator token and resets pending to `0`;
and dispatching `Eq` (when it returns) leaves the token list empty. -/
theorem c6_invariants (evs : List Events) (s : Calculator)
    (h : dispatchEvents Calculator.default evs = some s) :
    OpsWF s.ops ∧
    (s.ops ≠ [] → ∃ t, s.ops.getLast? = some t ∧ isOpTok t = true) ∧
    (∀ e, isOpEvent e = true → ∀ s', dispatch s e = some s' →
      s'.accumulator = 0 ∧ ∃ t, s'.ops.getLast? = some t ∧ isOpTok t = true) ∧
    (∀ s', dispatch s Events.Eq = some s' → s'.ops = []) := by
  have hwf : OpsWF s.ops := dispatchEvents_opsWF evs OpsWF.nil h
  refine ⟨hwf, hwf.ends_op, fun e he s' hd => ?_, fun s' hd => ?_⟩
  · have key : ∀ t : Tokens, isOpTok t = true →
        s' = { ops := s.ops ++ [Tokens.Number s.accumulator, t], accumulator := 0 } →
        s'.accumulator = 0 ∧ ∃ u, s'.ops.getLast? = some u ∧ isOpTok u = true := by
      rintro t ht rfl
      refine ⟨rfl, t, ?_, ht⟩
      have : s.ops ++ [Tokens.Number s.accumulator, t]
          = s.ops ++ Tokens.Number s.accumulator :: [t] := rfl
      rw [this, List.getLast?_append_cons, List.getLast?_cons_cons]
      rfl
    cases e
    case Add => cases hd; exact key Tokens.Add rfl rfl
    case Sub => cases hd; exact key Tokens.Sub rfl rfl
    case Mul => cases hd; exact key Tokens.Mul rfl rfl
    case Div => cases hd; exact key Tokens.Div rfl rfl
    all_goals simp [isOpEvent] at he
  · unfold dispatch at hd
    rcases hc : calculate (s.ops ++ [Tokens.Number s.accumulator]) with - | r <;>
      rw [hc] at hd
    · exact absurd hd (by simp)
    · cases hd; rfl

/-- C6 witness: the run `1, Add` reaches the state with token list
`[Number 1, Add]`, which is well-formed. -/
theorem c6_invariants_witness :
    dispatchEvents Calculator.default [Events.Number 1, Events.Add]
        = some { ops := [Tokens.Number 1, Tokens.Add], accumulator := 0 } ∧
    OpsWF [Tokens.Number 1, Tokens.Add] :=
  ⟨by decide,
    (c6_invariants [Events.Number 1, Events.Add]
      { ops := [Tokens.Number 1, Tokens.Add], accumulator := 0 } (by decide)).1⟩

/-! ## C5: safety of the postfix evaluation on well-formed input -/

/-- `popWhile` splits the stack: popped prefix plus remaining suffix. -/
theorem popWhile_append (p : Tokens → Bool) :
    ∀ s : List Tokens, (popWhile p s).1 ++ (popWhile p s).2 = s := by
  intro s
  induction s with
  | nil => rfl
  | cons t rest ih =>
    by_cases h : p t
    · simp [popWhile, h, ih]
    · simp [popWhile, h]

/-- Elements popped by `popWhile` come from the stack. -/
theorem popWhile_mem_pop {p : Tokens → Bool} {s : List Tokens} {t : Tokens}
    (h : t ∈ (popWhile p s).1) : t ∈ s := by
  rw [← popWhile_append p s]
  exact List.mem_append_left _ h

/-- Elements left by `popWhile` come from the stack. -/
theorem popWhile_mem_rem {p : Tokens → Bool} {s : List Tokens} {t : Tokens}
    (h : t ∈ (popWhile p s).2) : t ∈ s := by
  rw [← popWhile_append p s]
  exact List.mem_append_right _ h

/-- `popWhile` preserves the total length. -/
theorem popWhile_length (p : Tokens → Bool) (s : List Tokens) :
    (popWhile p s).1.length + (popWhile p s).2.length = s.length := by
  conv_rhs => rw [← popWhile_append p s]
  rw [List.length_append]

/-- The operator of a pair is an operator token. -/
theorem Op.tok_isOp (op : Op) : isOpTok op.tok = true := by
  cases op <;> rfl

/-- Evaluation of an appended list is sequential. -/
theorem evalGo_append :
    ∀ (a : List Tokens) (st : List Int) (b : List Tokens),
      evalGo st (a ++ b) = evalCont (evalGo st a) b := by
  intro a
  induction a with
  | nil => intro st b; rfl
  | cons t rest ih =>
    intro st b
    cases t with
    | Number n =>
      simp only [List.cons_append, evalGo]
      exact ih (n :: st) b
    | Add =>
      rcases st with - | ⟨y, - | ⟨x, st2⟩⟩
      · rfl
      · rfl
      · simp only [List.cons_append, evalGo]
        exact ih ((x + y) :: st2) b
    | Sub =>
      rcases st with - | ⟨y, - | ⟨x, st2⟩⟩
      · rfl
      · rfl
      · simp only [List.cons_append, evalGo]
        exact ih ((x - y) :: st2) b
    | Mul =>
      rcases st with - | ⟨y, - | ⟨x, st2⟩⟩
      · rfl
      · rfl
      · simp only [List.cons_append, evalGo]
        exact ih ((x * y) :: st2) b
    | Div =>
      rcases st with - | ⟨y, - | ⟨x, st2⟩⟩
      · rfl
      · rfl
      · simp only [List.cons_append, evalGo]
        by_cases hy : y = 0
        · simp [hy, evalCont]
        · simp only [if_neg hy]
          exact ih (Int.tdiv x y :: st2) b

/-- Evaluating a list of operator tokens on a strictly taller value stack
never underflows: it either succeeds, consuming one stack slot per
operator, or hits a division by zero. -/
theorem opsEval :
    ∀ (L : List Tokens) (st : List Int),
      (∀ t ∈ L, isOpTok t = true) → L.length < st.length →
      (∃ st', evalGo st L = .ok st' ∧ st'.length + L.length = st.length) ∨
        evalGo st L = .divZero := by
  intro L
  induction L with
  | nil =>
    intro st _ _
    exact Or.inl ⟨st, rfl, by simp⟩
  | cons t rest ih =>
    intro st hops hlen
    obtain ⟨y, x, st2, rfl⟩ : ∃ y x st2, st = y :: x :: st2 := by
      rcases st with - | ⟨y, - | ⟨x, st2⟩⟩
      · simp at hlen
      · simp at hlen
      · exact ⟨y, x, st2, rfl⟩
    have hrest : ∀ u ∈ rest, isOpTok u = true :=
      fun u hu => hops u (List.mem_cons_of_mem _ hu)
    have hlen' : rest.length < st2.length + 1 := by
      simp only [List.length_cons] at hlen
      omega
    cases t with
    | Number n =>
      have := hops (Tokens.Number n) (List.mem_cons_self _ _)
      simp [isOpTok, isAddSubTok, isMulDivTok] at this
    | Add =>
      rcases ih ((x + y) :: st2) hrest (by simpa using hlen') with ⟨st', h1, h2⟩ | h1
      · refine Or.inl ⟨st', by simpa [evalGo] using h1, ?_⟩
        simp only [List.length_cons] at h2 ⊢
        omega
      · exact Or.inr (by simpa [evalGo] using h1)
    | Sub =>
      rcases ih ((x - y) :: st2) hrest (by simpa using hlen') with ⟨st', h1, h2⟩ | h1
      · refine Or.inl ⟨st', by simpa [evalGo] using h1, ?_⟩
        simp only [List.length_cons] at h2 ⊢
        omega
      · exact Or.inr (by simpa [evalGo] using h1)
    | Mul =>
      rcases ih ((x * y) :: st2) hrest (by simpa using hlen') with ⟨st', h1, h2⟩ | h1
      · refine Or.inl ⟨st', by simpa [evalGo] using h1, ?_⟩
        simp only [List.length_cons] at h2 ⊢
        omega
      · exact Or.inr (by simpa [evalGo] using h1)
    | Div =>
      by_cases hy : y = 0
      · exact Or.inr (by simp [evalGo, hy])
      · rcases ih (Int.tdiv x y :: st2) hrest (by simpa using hlen') with ⟨st', h1, h2⟩ | h1
        · refine Or.inl ⟨st', by simpa [evalGo, hy] using h1, ?_⟩
          simp only [List.length_cons] at h2 ⊢
          omega
        · exact Or.inr (by simpa [evalGo, hy] using h1)

/-- Unfolding `shunting_yard_go` on exhausted input. -/
theorem shunting_yard_go_nil (out stack : List Tokens) :
    shunting_yard_go out stack [] = out ++ stack := rfl

/-- Unfolding `shunting_yard_go` on a number token. -/
theorem shunting_yard_go_num (out stack : List Tokens) (n : Int) (rest : List Tokens) :
    shunting_yard_go out stack (Tokens.Number n :: rest)
      = shunting_yard_go (out ++ [Tokens.Number n]) stack rest := rfl

/-- Unfolding `shunting_yard_go` on an operator token. -/
theorem shunting_yard_go_op (out stack : List Tokens) (tok : Tokens)
    (rest : List Tokens) (h : isOpTok tok = true) :
    shunting_yard_go out stack (tok :: rest)
      = shunting_yard_go (out ++ (popWhile (opClass tok) stack).1)
          (tok :: (popWhile (opClass tok) stack).2) rest := by
  cases tok <;> first
    | rfl
    | simp [isOpTok, isAddSubTok, isMulDivTok] at h

/-- Invariant of the shunting-yard main loop on well-formed input: the
operator stack holds only operators and the emitted output evaluates to a
stack one taller than the operator stack (unless a division by zero
already occurred); hence the final output evaluates to a single value or
hits a division by zero. -/
theorem sy_eval_ok :
    ∀ (pairs : List (Op × Int)) (out stack : List Tokens),
      (∀ t ∈ stack, isOpTok t = true) →
      ((∃ vs, evalGo [] out = .ok vs ∧ vs.length = stack.length + 1) ∨
        evalGo [] out = .divZero) →
      (∃ r, evalGo [] (shunting_yard_go out stack (pairTokens pairs)) = .ok [r]) ∨
        evalGo [] (shunting_yard_go out stack (pairTokens pairs)) = .divZero := by
  intro pairs
  induction pairs with
  | nil =>
    intro out stack hops hinv
    simp only [pairTokens, shunting_yard_go_nil]
    rcases hinv with ⟨vs, hok, hlen⟩ | hdz
    · rw [evalGo_append, hok]
      rcases opsEval stack vs hops (by omega) with ⟨st', h1, h2⟩ | h1
      · left
        have hone : st'.length = 1 := by omega
        obtain ⟨r, rfl⟩ := List.length_eq_one.mp hone
        exact ⟨r, by simpa [evalCont] using h1⟩
      · right
        simpa [evalCont] using h1
    · rw [evalGo_append, hdz]
      exact Or.inr rfl
  | cons p rest ih =>
    obtain ⟨op, n⟩ := p
    intro out stack hops hinv
    simp only [pairTokens]
    rw [shunting_yard_go_op out stack op.tok _ (Op.tok_isOp op), shunting_yard_go_num]
    apply ih
    · intro t ht
      rcases List.mem_cons.mp ht with rfl | ht2
      · exact Op.tok_isOp op
      · exact hops t (popWhile_mem_rem ht2)
    · rcases hinv with ⟨vs, hok, hlen⟩ | hdz
      · have hsub : ∀ t ∈ (popWhile (opClass op.tok) stack).1, isOpTok t = true :=
          fun t ht => hops t (popWhile_mem_pop ht)
        have hpwlen := popWhile_length (opClass op.tok) stack
        have hlt : (popWhile (opClass op.tok) stack).1.length < vs.length := by omega
        rcases opsEval _ vs hsub hlt with ⟨st1, h1, h2⟩ | h1
        · left
          refine ⟨n :: st1, ?_, ?_⟩
          · rw [evalGo_append, evalGo_append, hok]
            simp only [evalCont]
            rw [h1]
            rfl
          · simp only [List.length_cons]
            omega
        · right
          rw [evalGo_append, evalGo_append, hok]
          simp only [evalCont]
          rw [h1]
      · right
        rw [evalGo_append, evalGo_append, hdz]
        rfl

/-- C5: for every well-formed alternating token sequence whose evaluation
meets no zero divisor, the postfix evaluation of the shunting-yard output
never pops an empty stack — it succeeds with exactly one value remaining
on the stack, and that value is what `calculate` returns. -/
theorem c5_wellformed_eval (first : Int) (rest : List (Op × Int))
    (hnd : evalGo [] (shunting_yard (toTokens first rest)) ≠ EvalResult.divZero) :
    ∃ r, evalGo [] (shunting_yard (toTokens first rest)) = EvalResult.ok [r] ∧
      calculate (toTokens first rest) = some r := by
  have h0 : shunting_yard (toTokens first rest)
      = shunting_yard_go [Tokens.Number first] [] (pairTokens rest) := rfl
  have hmain := sy_eval_ok rest [Tokens.Number first] []
    (by intro t ht; simp at ht) (Or.inl ⟨[first], rfl, rfl⟩)
  rw [h0] at hnd ⊢
  rcases hmain with ⟨r, hr⟩ | hdz
  · refine ⟨r, hr, ?_⟩
    unfold calculate
    rw [h0, hr]
  · exact absurd hdz hnd

/-- C5 witness: the well-formed sequence `7 + 3` evaluates safely to the
single stack value `10`, which `calculate` returns. -/
theorem c5_wellformed_eval_witness :
    ∃ r, evalGo [] (shunting_yard (toTokens 7 [(Op.add, 3)])) = EvalResult.ok [r] ∧
      calculate (toTokens 7 [(Op.add, 3)]) = some r :=
  c5_wellformed_eval 7 [(Op.add, 3)] (by decide)

end CalculatorRs
